import Mathlib

/-!
Verification of the speaker-role-classifier core (classifier.py and
safeguard.py) against its specification.  Transcripts are modelled as
lists of characters (`Str`); the Python string operations used by the
source (strip, lower, split, replace, count, startswith, in, join) are
embedded as executable Lean functions below; the two external
reasoning-service calls are abstracted as oracle parameters, so every
code path that does not depend on the network is reproduced exactly.
-/

set_option maxHeartbeats 1000000

/-- Transcript text: a Python `str` as a list of characters. -/
abbrev Str := List Char

/-- The characters Python's `str.strip()` / `str.split()` treat as whitespace
(ASCII subset: space, tab, newline, vertical tab, form feed, carriage return). -/
def pyIsSpace (c : Char) : Bool :=
  c = ' ' || c = '\t' || c = '\n' || c = Char.ofNat 11 || c = Char.ofNat 12 || c = '\r'

/-- Python `s.strip()`: drop whitespace from both ends. -/
def pyStrip (s : Str) : Str :=
  ((s.dropWhile pyIsSpace).reverse.dropWhile pyIsSpace).reverse

/-- Python `s.lower()` (ASCII letters, which is all the source compares). -/
def lowerStr (s : Str) : Str := s.map Char.toLower

/-- Python `s.split(sep)` for a one-character separator. -/
def splitOnChar (sep : Char) : Str → List Str
  | [] => [[]]
  | c :: rest =>
      if c = sep then [] :: splitOnChar sep rest
      else
        match splitOnChar sep rest with
        | [] => [[c]]
        | w :: ws => (c :: w) :: ws

/-- Python `transcript.split('\n')`. -/
def splitNl (s : Str) : List Str := splitOnChar '\n' s

/-- Python `sep.join(pieces)`. -/
def joinSep (sep : Str) : List Str → Str
  | [] => []
  | [l] => l
  | l :: l2 :: ls => l ++ sep ++ joinSep sep (l2 :: ls)

/-- Python `'\n'.join(lines)`. -/
def joinNl (ls : List Str) : Str := joinSep ['\n'] ls

/-- Helper for `splitWs`: `cur` is the current word, reversed. -/
def splitWsAux : Str → Str → List Str
  | cur, [] => if cur = [] then [] else [cur.reverse]
  | cur, c :: rest =>
      if pyIsSpace c then
        if cur = [] then splitWsAux [] rest else cur.reverse :: splitWsAux [] rest
      else splitWsAux (c :: cur) rest

/-- Python `s.split()` with no argument: split on whitespace runs, no empty words. -/
def splitWs (s : Str) : List Str := splitWsAux [] s

/-- Python string comparison `a < b` (lexicographic on code points). -/
def lexLt : Str → Str → Bool
  | [], [] => false
  | [], _ :: _ => true
  | _ :: _, [] => false
  | a :: s, b :: t => a < b || (a = b && lexLt s t)

/-- One step of insertion sort for `sortDesc`. -/
def insertDesc (x : Str) : List Str → List Str
  | [] => [x]
  | y :: ys => if lexLt y x then x :: y :: ys else y :: insertDesc x ys

/-- Python `sorted(keys, reverse=True)`: descending lexicographic order. -/
def sortDesc (l : List Str) : List Str := l.foldr insertDesc []

/-- One step of insertion sort for `sortAsc`. -/
def insertAsc (x : Str) : List Str → List Str
  | [] => [x]
  | y :: ys => if lexLt x y then x :: y :: ys else y :: insertAsc x ys

/-- Python `sorted(keys)`: ascending lexicographic order. -/
def sortAsc (l : List Str) : List Str := l.foldr insertAsc []

/-- Add an element to a Python-set-as-list unless already present. -/
def insertUnique (l : List Str) (x : Str) : List Str :=
  if x ∈ l then l else l ++ [x]

/-- Fuel-indexed body of `replaceAll`; the fuel only bounds the recursion
depth and `replaceAll` always supplies enough of it (one unit per character). -/
def replaceAllF (p r : Str) : Nat → Str → Str
  | _, [] => []
  | 0, s => s
  | fuel + 1, c :: rest =>
      if p <+: c :: rest then r ++ replaceAllF p r fuel (List.drop (p.length - 1) rest)
      else c :: replaceAllF p r fuel rest

/-- Python `s.replace(p, r)` for a non-empty pattern `p`: replace every
leftmost non-overlapping occurrence, scanning left to right. -/
def replaceAll (s p r : Str) : Str := replaceAllF p r s.length s

/-- Fuel-indexed body of `countOcc`. -/
def countOccF (p : Str) : Nat → Str → Nat
  | _, [] => 0
  | 0, _ => 0
  | fuel + 1, c :: rest =>
      if p <+: c :: rest then 1 + countOccF p fuel (List.drop (p.length - 1) rest)
      else countOccF p fuel rest

/-- Python `s.count(p)` for a non-empty pattern `p`: leftmost non-overlapping
occurrences. -/
def countOcc (s p : Str) : Nat := countOccF p s.length s

/-- Python `s.replace(p, r, 1)`: replace only the first occurrence. -/
def replaceFirst : Str → Str → Str → Str
  | [], p, r => if p = [] then r else []
  | c :: rest, p, r =>
      if p <+: c :: rest then r ++ List.drop p.length (c :: rest)
      else c :: replaceFirst rest p r

/-- Shorthand for embedding a Lean string literal as transcript text. -/
def strL (s : String) : Str := s.toList

/-- One replacement record of the `label_replacement` log entry:
(from-label, to-role, occurrence count). -/
abbrev Replacement := Str × Str × Nat

/-- A correction recorded by the safeguard (`corrections_made` entries:
current_role, correct_role, reason). -/
structure Correction where
  currentRole : Str
  correctRole : Str
  reason : Str
deriving DecidableEq

/-- A structured tool call returned by the reasoning service in a safeguard
iteration, with its parsed arguments. -/
structure ToolCall where
  name : Str
  currentRole : Str
  utterancePrefix : Str
  correctRole : Str
  reason : Str
deriving DecidableEq

/-- A reasoning-service response in the safeguard loop: a transport/parse
failure (the `except` path), a plain message (no tool calls, which Python
sees as falsy `message.tool_calls`), or a list of tool calls. -/
inductive SvcResponse where
  | failure (msg : Str)
  | message (content : Str)
  | toolCalls (calls : List ToolCall)
deriving DecidableEq

/-- The structured log entries the source appends, one constructor per
`step` value. -/
inductive LogEntry where
  | configuration (targetRoles : List Str) (enableSafeguard : Bool)
  | labelAnalysis (allLabels targetRoles nonTargetLabels : List Str)
  | mappingRequest (targetRoles : List Str) (labelsToMap : List Str)
  | mappingDecision (mapping : List (Str × Str))
  | errorEntry (msg : Str)
  | labelReplacement (replacements : List Replacement)
  | safeguardStub
  | safeguardStart (targetRoles : List Str)
  | safeguardIteration (iteration : Nat)
  | toolCallsRequested (count : Nat)
  | toolCallEntry (name currentRole utterancePrefix correctRole reason : Str)
  | utteranceCorrected (lineIndex : Nat) (oldRole newRole oldLine newLine : Str)
  | correctionError (lineIndex : Nat)
  | utteranceNotFound (currentRole utterancePrefix : Str)
  | safeguardComplete (message : Str) (totalCorrections : Nat)
  | safeguardError (msg : Str)
  | safeguardEnd (correctionsMade : List Correction) (totalCorrections : Nat)
deriving DecidableEq

/-- The `step` field of a log entry, exactly as the source writes it. -/
def stepName : LogEntry → String
  | LogEntry.configuration _ _ => "configuration"
  | LogEntry.labelAnalysis _ _ _ => "label_analysis"
  | LogEntry.mappingRequest _ _ => "mapping_request"
  | LogEntry.mappingDecision _ => "mapping_decision"
  | LogEntry.errorEntry _ => "error"
  | LogEntry.labelReplacement _ => "label_replacement"
  | LogEntry.safeguardStub => "safeguard"
  | LogEntry.safeguardStart _ => "safeguard_start"
  | LogEntry.safeguardIteration _ => "safeguard_iteration"
  | LogEntry.toolCallsRequested _ => "tool_calls_requested"
  | LogEntry.toolCallEntry _ _ _ _ _ => "tool_call"
  | LogEntry.utteranceCorrected _ _ _ _ _ => "utterance_corrected"
  | LogEntry.correctionError _ => "correction_error"
  | LogEntry.utteranceNotFound _ _ => "utterance_not_found"
  | LogEntry.safeguardComplete _ _ => "safeguard_complete"
  | LogEntry.safeguardError _ => "safeguard_error"
  | LogEntry.safeguardEnd _ _ => "safeguard_end"

/-- The two validation failures `_validate_mapping` can raise, with the
formatted message. -/
inductive ValidationError where
  | missingSpeakerMapping (msg : Str)
  | speakerNotFound (msg : Str)
deriving DecidableEq

/-- The dict returned by `_call_gpt5_api`: label-to-role pairs (keys unique
in every run, since it is parsed from a JSON object). -/
abbrev Mapping := List (Str × Str)

/-- The oracle abstracting the mapping call to the reasoning service:
transcript, target roles and labels in, mapping out. -/
abbrev MappingSvc := Str → List Str → List Str → Mapping

/-- The result dict of `classify_speakers`. -/
structure ClassifyResult where
  transcript : Str
  log : List LogEntry
deriving DecidableEq

/-- Python dict lookup `mapping[label]` (keys are unique, so first match). -/
def dictGet (m : Mapping) (k : Str) : Str :=
  ((m.find? fun kv => kv.1 = k).map Prod.snd).getD []

/-- The distinct keys of a mapping, in first-occurrence order. -/
def dictKeys (m : Mapping) : List Str :=
  (m.map Prod.fst).foldl insertUnique []

/-- `_extract_speaker_labels` (classifier.py): the label of one stripped
line, when the regex `^([^:]+):` matches — a non-empty colon-free prefix
followed by a colon — trimmed; `none` otherwise. -/
def lineLabel? (line : Str) : Option Str :=
  let l := pyStrip line
  if l = [] then none
  else
    let pre := l.takeWhile fun c => c ≠ ':'
    if pre ≠ [] ∧ pre.length < l.length then some (pyStrip pre) else none

/-- One line's contribution to the label set: `labels.add(...)` under the
regex match of `_extract_speaker_labels`. -/
def addLineLabel (acc : List Str) (line : Str) : List Str :=
  match lineLabel? line with
  | some lab => insertUnique acc lab
  | none => acc

/-- `_extract_speaker_labels` (classifier.py): all distinct labels of a
transcript (the Python set is modelled as a duplicate-free list in
first-occurrence order). -/
def _extract_speaker_labels (transcript : Str) : List Str :=
  (splitNl transcript).foldl addLineLabel []

/-- `_identify_non_target_labels` (classifier.py). -/
def _identify_non_target_labels (transcript : Str) (targetRoles : List Str) : List Str :=
  (_extract_speaker_labels transcript).filter fun lab => decide (lab ∉ targetRoles)

/-- `_validate_mapping` (classifier.py): check completeness (every
non-target label mapped) then absence of extraneous keys, raising
`MissingSpeakerMapping` respectively `SpeakerNotFound` with the sorted,
comma-joined offending labels in the message. -/
def _validate_mapping (transcript : Str) (mapping : Mapping) (targetRoles : List Str) :
    Except ValidationError Unit :=
  let nonTargetLabels := _identify_non_target_labels transcript targetRoles
  let speakersInMapping := dictKeys mapping
  let unmapped := nonTargetLabels.filter fun lab => decide (lab ∉ speakersInMapping)
  if unmapped ≠ [] then
    Except.error (ValidationError.missingSpeakerMapping
      (strL "Not all speakers are mapped. Missing: " ++ joinSep (strL ", ") (sortAsc unmapped)))
  else
    let allLabels := _extract_speaker_labels transcript
    let extraSpeakers := speakersInMapping.filter fun k => decide (k ∉ allLabels)
    if extraSpeakers ≠ [] then
      Except.error (ValidationError.speakerNotFound
        (strL "Mapped speakers not found in transcript: " ++
          joinSep (strL ", ") (sortAsc extraSpeakers)))
    else Except.ok ()

/-- One key's step of `_replace_speakers`: replace `label:` by `role:`
everywhere when the pattern occurs, recording the occurrence count. -/
def replaceSpeakersStep (mapping : Mapping) (acc : Str × List Replacement) (label : Str) :
    Str × List Replacement :=
  let role := dictGet mapping label
  let oldPattern := label ++ [':']
  let newPattern := role ++ [':']
  if oldPattern <:+: acc.1 then
    (replaceAll acc.1 oldPattern newPattern,
      acc.2 ++ [(label, role, countOcc acc.1 oldPattern)])
  else acc

/-- `_replace_speakers` (classifier.py): process the mapping keys in
descending lexicographic order, appending one `label_replacement` entry. -/
def _replace_speakers (transcript : Str) (mapping : Mapping) (log : List LogEntry) :
    Str × List LogEntry :=
  let st := (sortDesc (dictKeys mapping)).foldl (replaceSpeakersStep mapping) (transcript, [])
  (st.1, log ++ [LogEntry.labelReplacement st.2])

/-- The success path of `_call_gpt5_api` (classifier.py) with the network
call abstracted by the `svc` oracle: log `mapping_request`, obtain the
mapping, log `mapping_decision`, return it. -/
def _call_gpt5_api (svc : MappingSvc) (transcript : Str) (targetRoles : List Str)
    (labelsToMap : List Str) (log : List LogEntry) : Mapping × List LogEntry :=
  let log1 := log ++ [LogEntry.mappingRequest targetRoles labelsToMap]
  let mapping := svc transcript targetRoles labelsToMap
  (mapping, log1 ++ [LogEntry.mappingDecision mapping])

/-- The default target roles of `classify_speakers`. -/
def defaultTargetRoles : List Str := [strL "Agent", strL "Customer"]

/-- `classify_speakers` (classifier.py): log configuration and label
analysis; when non-target labels exist, call the mapper, validate (errors
propagate) and substitute; when the safeguard flag is set, append the
source's `safeguard: not_yet_implemented` stub entry. -/
def classify_speakers (svc : MappingSvc) (transcript : Str)
    (targetRoles : Option (List Str)) (enableSafeguard : Bool) :
    Except ValidationError ClassifyResult :=
  let roles := targetRoles.getD defaultTargetRoles
  let log1 : List LogEntry := [LogEntry.configuration roles enableSafeguard]
  let nonTargetLabels := _identify_non_target_labels transcript roles
  let log2 := log1 ++
    [LogEntry.labelAnalysis (_extract_speaker_labels transcript) roles nonTargetLabels]
  let afterMapping : Except ValidationError (Str × List LogEntry) :=
    if nonTargetLabels = [] then Except.ok (transcript, log2)
    else
      let mr := _call_gpt5_api svc transcript roles nonTargetLabels log2
      match _validate_mapping transcript mr.1 roles with
      | Except.error e => Except.error e
      | Except.ok _ => Except.ok (_replace_speakers transcript mr.1 mr.2)
  match afterMapping with
  | Except.error e => Except.error e
  | Except.ok st =>
      Except.ok ⟨st.1, if enableSafeguard then st.2 ++ [LogEntry.safeguardStub] else st.2⟩

/-- The tokenized, lower-cased search prefix of `_find_utterance_by_prefix`
(safeguard.py): `utterance_prefix.strip().lower().split()[:max_words]`. -/
def prefixTokens (utterancePrefix : Str) (maxWords : Nat) : List Str :=
  (splitWs (lowerStr (pyStrip utterancePrefix))).take maxWords

/-- The per-line test of `_find_utterance_by_prefix` (safeguard.py): the
stripped line is non-blank, starts with `current_role:`, and the first
`len(prefix_words)` of its (at most `max_words`) lower-cased words equal
the prefix words. -/
def utteranceLineMatches (currentRole utterancePrefix : Str) (maxWords : Nat)
    (line : Str) : Bool :=
  let l := pyStrip line
  if l = [] then false
  else if (currentRole ++ [':']) <+: l then
    let textAfterRole := pyStrip (l.drop (currentRole ++ [':']).length)
    let textWords := (splitWs (lowerStr textAfterRole)).take maxWords
    decide (textWords.take (prefixTokens utterancePrefix maxWords).length =
      prefixTokens utterancePrefix maxWords)
  else false

/-- The scan of `_find_utterance_by_prefix` over the enumerated lines. -/
def findUtteranceGo (currentRole utterancePrefix : Str) (maxWords : Nat) :
    Nat → List Str → Option (Nat × Str)
  | _, [] => none
  | i, line :: rest =>
      if utteranceLineMatches currentRole utterancePrefix maxWords line then
        some (i, pyStrip line)
      else findUtteranceGo currentRole utterancePrefix maxWords (i + 1) rest

/-- `_find_utterance_by_prefix` (safeguard.py): the first line (in document
order) whose stripped text carries `current_role:` and whose leading words
match the supplied prefix, as (line index, stripped line); `none` when no
line matches. -/
def findUtteranceByPrefix (transcript currentRole utterancePrefix : Str)
    (maxWords : Nat := 10) : Option (Nat × Str) :=
  findUtteranceGo currentRole utterancePrefix maxWords 0 (splitNl transcript)

/-- `_correct_single_utterance` (safeguard.py): replace the first
`old_role:` of the line at `line_index` by `new_role:` and log
`utterance_corrected`; when the index is out of range, log
`correction_error` and return the transcript unchanged. -/
def _correct_single_utterance (transcript : Str) (lineIndex : Nat)
    (oldRole newRole : Str) (log : List LogEntry) : Str × List LogEntry :=
  let lines := splitNl transcript
  if lines.length ≤ lineIndex then
    (transcript, log ++ [LogEntry.correctionError lineIndex])
  else
    let oldLine := lines.getD lineIndex []
    let newLine := replaceFirst oldLine (oldRole ++ [':']) (newRole ++ [':'])
    (joinNl (lines.set lineIndex newLine),
      log ++ [LogEntry.utteranceCorrected lineIndex oldRole newRole oldLine newLine])

/-- The function name the safeguard tool protocol accepts. -/
def correctSpeakerRoleName : Str := strL "correct_speaker_role"

/-- Processing of one tool call inside a safeguard iteration
(run_safeguard_validation's inner loop): log `tool_call`; for a
`correct_speaker_role` call, locate the utterance and either correct it
(recording a `Correction`) or log `utterance_not_found`; any other
function name changes nothing further. -/
def processToolCall (st : Str × List Correction × List LogEntry) (c : ToolCall) :
    Str × List Correction × List LogEntry :=
  let log1 := st.2.2 ++
    [LogEntry.toolCallEntry c.name c.currentRole c.utterancePrefix c.correctRole c.reason]
  if c.name = correctSpeakerRoleName then
    match findUtteranceByPrefix st.1 c.currentRole c.utterancePrefix 10 with
    | some found =>
        let corrected := _correct_single_utterance st.1 found.1 c.currentRole c.correctRole log1
        (corrected.1,
          st.2.1 ++ [⟨c.currentRole, c.correctRole, c.reason⟩],
          corrected.2)
    | none =>
        (st.1, st.2.1,
          log1 ++ [LogEntry.utteranceNotFound c.currentRole c.utterancePrefix])
  else (st.1, st.2.1, log1)

/-- `max_iterations` of the safeguard loop (safeguard.py). -/
def maxIterations : Nat := 3

/-- The `safeguard_complete` message: `'No corrections needed' if not
corrections_made else 'All corrections completed'`. -/
def completeMessage (correctionsMade : List Correction) : Str :=
  if correctionsMade = [] then strL "No corrections needed"
  else strL "All corrections completed"

/-- The `for iteration in range(3)` loop of `run_safeguard_validation`,
with the reasoning service abstracted as `svc` (one response per
iteration): `rem` counts the iterations that remain (`maxIterations - i`),
`i` is the current iteration index.  Each pass logs
`safeguard_iteration`; a service failure logs `safeguard_error` and stops;
a plain message (or an empty tool-call list, falsy in Python) logs
`safeguard_complete` and stops; otherwise the tool calls are processed in
order and the loop continues exactly when a correction has been made so
far and `i < maxIterations - 1`. -/
def safeguardLoopAux (svc : Nat → SvcResponse) :
    Nat → Nat → Str → List Correction → List LogEntry →
      Str × List Correction × List LogEntry
  | 0, _, tr, cors, log => (tr, cors, log)
  | rem + 1, i, tr, cors, log =>
      let log1 := log ++ [LogEntry.safeguardIteration (i + 1)]
      match svc i with
      | SvcResponse.failure msg => (tr, cors, log1 ++ [LogEntry.safeguardError msg])
      | SvcResponse.message _ =>
          (tr, cors, log1 ++ [LogEntry.safeguardComplete (completeMessage cors) cors.length])
      | SvcResponse.toolCalls calls =>
          if calls = [] then
            (tr, cors, log1 ++ [LogEntry.safeguardComplete (completeMessage cors) cors.length])
          else
            let st := calls.foldl processToolCall
              (tr, cors, log1 ++ [LogEntry.toolCallsRequested calls.length])
            if st.2.1 ≠ [] ∧ i < maxIterations - 1 then
              safeguardLoopAux svc rem (i + 1) st.1 st.2.1 st.2.2
            else st

/-- `run_safeguard_validation` (safeguard.py) with the reasoning service
abstracted: log `safeguard_start`, run at most `maxIterations` review
iterations, and always append the final `safeguard_end` entry carrying
the corrections list and its length. -/
def run_safeguard_validation (svc : Nat → SvcResponse) (transcript : Str)
    (targetRoles : List Str) (log : List LogEntry) : Str × List LogEntry :=
  let log1 := log ++ [LogEntry.safeguardStart targetRoles]
  let st := safeguardLoopAux svc maxIterations 0 transcript [] log1
  (st.1, st.2.2 ++ [LogEntry.safeguardEnd st.2.1 st.2.1.length])

/-- Whether a log entry is a `safeguard_iteration` entry. -/
def isIterationEntry (e : LogEntry) : Bool := stepName e == "safeguard_iteration"

/-- Modelled from the spec sentence behind claim C9, word for word: the set
of distinct trimmed prefixes before the first colon, taken over the lines
that are non-empty after trimming and contain a colon.  (The source's
regex additionally requires the prefix to be non-empty; this literal
reading does not, which is what the counterexample exhibits.) -/
def labelsSpecLiteral (transcript : Str) : List Str :=
  (splitNl transcript).foldl
    (fun acc line =>
      let l := pyStrip line
      if l ≠ [] ∧ ':' ∈ l then insertUnique acc (pyStrip (l.takeWhile fun c => c ≠ ':'))
      else acc)
    []

/-- The mocked mapping of the spec's end-to-end example 1. -/
def mockMapping01 : Mapping :=
  [(strL "Speaker 0", strL "Agent"), (strL "Speaker 1", strL "Customer")]

/-- The mapping service mocked to return `mockMapping01`. -/
def mockSvc01 : MappingSvc := fun _ _ _ => mockMapping01

/-- The input transcript of the spec's end-to-end example 1. -/
def exampleTranscript1 : Str := strL "Speaker 0: Good afternoon.\nSpeaker 1: Hi."

/-- The expected output of the spec's end-to-end example 1. -/
def exampleOutput1 : Str := strL "Agent: Good afternoon.\nCustomer: Hi."

/-- The exemplar mapping of claim C4: one label a literal prefix of the other. -/
def prefixPairMapping : Mapping :=
  [(strL "Speaker 1", strL "Agent"), (strL "Speaker 10", strL "Customer")]
/-- C1: on the transcript of end-to-end example 1, with the validated mapping
of Speaker 0 to Agent and Speaker 1 to Customer, the Label Substitution Engine
rewrites the transcript to exactly the expected output, and so does the whole
classification call with the mapping service mocked to return that mapping,
default roles and the safeguard flag disabled. -/
theorem c1_end_to_end_example :
    (_replace_speakers exampleTranscript1 mockMapping01 []).1 = exampleOutput1 ∧
    (classify_speakers mockSvc01 exampleTranscript1 none false).toOption.map
        ClassifyResult.transcript = some exampleOutput1 := by
  decide

/-- C5 (code bug): with the safeguard flag enabled, `classify_speakers` as
written never invokes `run_safeguard_validation`: on the example transcript
with the mocked mapping service the returned log holds only the stub entry
whose step is `safeguard`, no `safeguard_start` and no `safeguard_end`. -/
theorem c5_safeguard_never_invoked :
    (classify_speakers mockSvc01 exampleTranscript1 none true).toOption.map
        (fun r => r.log.map stepName) =
      some ["configuration", "label_analysis", "mapping_request", "mapping_decision",
        "label_replacement", "safeguard"] ∧
    ((classify_speakers mockSvc01 exampleTranscript1 none true).toOption.map
        (fun r => decide ("safeguard_start" ∈ r.log.map stepName))) = some false ∧
    ((classify_speakers mockSvc01 exampleTranscript1 none true).toOption.map
        (fun r => decide ("safeguard_end" ∈ r.log.map stepName))) = some false := by
  decide
/-- C2: when the transcript's set of non-target labels is empty,
classification with the safeguard disabled returns the transcript unchanged
and the log holds exactly the `configuration` and `label_analysis` entries
(in particular no mapping_request, mapping_decision, error or
label_replacement entry). -/
theorem c2_passthrough_when_no_non_target_labels (svc : MappingSvc) (t : Str)
    (rolesOpt : Option (List Str))
    (h : _identify_non_target_labels t (rolesOpt.getD defaultTargetRoles) = []) :
    classify_speakers svc t rolesOpt false =
      Except.ok ⟨t,
        [LogEntry.configuration (rolesOpt.getD defaultTargetRoles) false,
         LogEntry.labelAnalysis (_extract_speaker_labels t)
           (rolesOpt.getD defaultTargetRoles) []]⟩ ∧
    (classify_speakers svc t rolesOpt false).toOption.map (fun r => r.log.map stepName) =
      some ["configuration", "label_analysis"] := by
  constructor
  · unfold classify_speakers
    simp only [ h, if_pos rfl]
    rfl
  · unfold classify_speakers
    simp only [ h, if_pos rfl]
    rfl

/-- C2 witness: the passthrough theorem at the concrete transcript
`Agent: hi` with default roles. -/
theorem c2_passthrough_witness :
    classify_speakers mockSvc01 (strL "Agent: hi") none false =
      Except.ok ⟨strL "Agent: hi",
        [LogEntry.configuration defaultTargetRoles false,
         LogEntry.labelAnalysis (_extract_speaker_labels (strL "Agent: hi"))
           defaultTargetRoles []]⟩ ∧
    (classify_speakers mockSvc01 (strL "Agent: hi") none false).toOption.map
        (fun r => r.log.map stepName) =
      some ["configuration", "label_analysis"] :=
  c2_passthrough_when_no_non_target_labels mockSvc01 (strL "Agent: hi") none (by decide)
theorem filter_ne_nil_iff_exists {l : List Str} {p : Str → Bool} :
    l.filter p ≠ [] ↔ ∃ x ∈ l, p x = true := by
  rw [ Ne, List.filter_eq_nil_iff]
  push_neg
  simp

theorem validate_missing_of (t : Str) (m : Mapping) (roles : List Str)
    (h1 : (_identify_non_target_labels t roles).filter
      (fun lab => decide (lab ∉ dictKeys m)) ≠ []) :
    _validate_mapping t m roles =
      Except.error (ValidationError.missingSpeakerMapping
        (strL "Not all speakers are mapped. Missing: " ++ joinSep (strL ", ")
          (sortAsc ((_identify_non_target_labels t roles).filter
            (fun lab => decide (lab ∉ dictKeys m)))))) := by
  simp only [ _validate_mapping]
  rw [ if_pos h1]

theorem validate_notfound_of (t : Str) (m : Mapping) (roles : List Str)
    (h1 : (_identify_non_target_labels t roles).filter
      (fun lab => decide (lab ∉ dictKeys m)) = [])
    (h2 : (dictKeys m).filter (fun k => decide (k ∉ _extract_speaker_labels t)) ≠ []) :
    _validate_mapping t m roles =
      Except.error (ValidationError.speakerNotFound
        (strL "Mapped speakers not found in transcript: " ++ joinSep (strL ", ")
          (sortAsc ((dictKeys m).filter
            (fun k => decide (k ∉ _extract_speaker_labels t)))))) := by
  simp only [ _validate_mapping]
  rw [ if_neg (not_not_intro h1), if_pos h2]

theorem validate_ok_of (t : Str) (m : Mapping) (roles : List Str)
    (h1 : (_identify_non_target_labels t roles).filter
      (fun lab => decide (lab ∉ dictKeys m)) = [])
    (h2 : (dictKeys m).filter (fun k => decide (k ∉ _extract_speaker_labels t)) = []) :
    _validate_mapping t m roles = Except.ok () := by
  simp only [ _validate_mapping]
  rw [ if_neg (not_not_intro h1), if_neg (not_not_intro h2)]

/-- C3: the Mapping Validator fails with `MissingSpeakerMapping` (naming the
missing labels sorted and comma-joined) exactly when some non-target label is
absent from the mapping's keys — regardless of extraneous keys, so a mapping
violating both rules raises `MissingSpeakerMapping`; it fails with
`SpeakerNotFound` (naming the extraneous keys sorted and comma-joined)
exactly when all non-target labels are covered but some key is not a label of
the transcript; and it returns without raising exactly when neither rule is
violated. -/
theorem c3_validator_exact_failure_conditions (t : Str) (m : Mapping) (roles : List Str) :
    ((_identify_non_target_labels t roles).filter
        (fun lab => decide (lab ∉ dictKeys m)) ≠ [] ↔
      ∃ lab ∈ _identify_non_target_labels t roles, lab ∉ dictKeys m) ∧
    ((dictKeys m).filter (fun k => decide (k ∉ _extract_speaker_labels t)) ≠ [] ↔
      ∃ k ∈ dictKeys m, k ∉ _extract_speaker_labels t) ∧
    ((_identify_non_target_labels t roles).filter
        (fun lab => decide (lab ∉ dictKeys m)) ≠ [] ↔
      _validate_mapping t m roles =
        Except.error (ValidationError.missingSpeakerMapping
          (strL "Not all speakers are mapped. Missing: " ++ joinSep (strL ", ")
            (sortAsc ((_identify_non_target_labels t roles).filter
              (fun lab => decide (lab ∉ dictKeys m))))))) ∧
    ((_identify_non_target_labels t roles).filter
        (fun lab => decide (lab ∉ dictKeys m)) = [] ∧
      (dictKeys m).filter (fun k => decide (k ∉ _extract_speaker_labels t)) ≠ [] ↔
      _validate_mapping t m roles =
        Except.error (ValidationError.speakerNotFound
          (strL "Mapped speakers not found in transcript: " ++ joinSep (strL ", ")
            (sortAsc ((dictKeys m).filter
              (fun k => decide (k ∉ _extract_speaker_labels t))))))) ∧
    ((_identify_non_target_labels t roles).filter
        (fun lab => decide (lab ∉ dictKeys m)) = [] ∧
      (dictKeys m).filter (fun k => decide (k ∉ _extract_speaker_labels t)) = [] ↔
      _validate_mapping t m roles = Except.ok ()) := by
  refine ⟨filter_ne_nil_iff_exists.trans (by simp),
    filter_ne_nil_iff_exists.trans (by simp), ?_, ?_, ?_⟩
  · constructor
    · exact validate_missing_of t m roles
    · intro heq
      intro h1
      by_cases h2 : (dictKeys m).filter
          (fun k => decide (k ∉ _extract_speaker_labels t)) = []
      · rw [validate_ok_of t m roles h1 h2] at heq
        exact absurd heq (by simp)
      · rw [validate_notfound_of t m roles h1 h2] at heq
        exact absurd heq (by simp)
  · constructor
    · intro h
      exact validate_notfound_of t m roles h.1 h.2
    · intro heq
      by_cases h1 : (_identify_non_target_labels t roles).filter
          (fun lab => decide (lab ∉ dictKeys m)) = []
      · refine ⟨h1, ?_⟩
        intro h2
        rw [validate_ok_of t m roles h1 h2] at heq
        exact absurd heq (by simp)
      · rw [validate_missing_of t m roles h1] at heq
        exact absurd heq (by simp)
  · constructor
    · intro h
      exact validate_ok_of t m roles h.1 h.2
    · intro heq
      by_cases h1 : (_identify_non_target_labels t roles).filter
          (fun lab => decide (lab ∉ dictKeys m)) = []
      · refine ⟨h1, ?_⟩
        by_contra h2
        rw [validate_notfound_of t m roles h1 h2] at heq
        exact absurd heq (by simp)
      · rw [validate_missing_of t m roles h1] at heq
        exact absurd heq (by simp)
/-- C8: inside a safeguard iteration, a `correct_speaker_role` tool call whose
utterance prefix matches no line carrying the given current role appends the
`tool_call` entry and an `utterance_not_found` entry recording the attempted
role and prefix, leaves the transcript unchanged, and records no Correction
(so it cannot count toward `safeguard_end`'s total). -/
theorem c8_unlocated_tool_call_changes_nothing
    (st : Str × List Correction × List LogEntry) (c : ToolCall)
    (hname : c.name = correctSpeakerRoleName)
    (hfind : findUtteranceByPrefix st.1 c.currentRole c.utterancePrefix 10 = none) :
    processToolCall st c =
      (st.1, st.2.1, st.2.2 ++
        [LogEntry.toolCallEntry c.name c.currentRole c.utterancePrefix c.correctRole c.reason,
         LogEntry.utteranceNotFound c.currentRole c.utterancePrefix]) := by
  simp only [processToolCall, hname, if_pos rfl, hfind, List.append_assoc, List.cons_append,
    List.nil_append, if_true]

/-- C8 witness: a tool call asking for role `Customer` with a prefix that
matches nothing in the one-line transcript `Agent: hi`. -/
theorem c8_unlocated_tool_call_witness :
    processToolCall (strL "Agent: hi", [], [])
        ⟨correctSpeakerRoleName, strL "Customer", strL "nothing like this",
          strL "Agent", strL "r"⟩ =
      (strL "Agent: hi", [],
        [LogEntry.toolCallEntry correctSpeakerRoleName (strL "Customer")
          (strL "nothing like this") (strL "Agent") (strL "r"),
         LogEntry.utteranceNotFound (strL "Customer") (strL "nothing like this")]) :=
  c8_unlocated_tool_call_changes_nothing (strL "Agent: hi", [], [])
    ⟨correctSpeakerRoleName, strL "Customer", strL "nothing like this",
      strL "Agent", strL "r"⟩ (by decide) (by decide)
theorem splitOnChar_ne_nil (sep : Char) (s : Str) : splitOnChar sep s ≠ [] := by
  induction s with
  | nil => simp [splitOnChar]
  | cons c rest ih =>
      simp only [splitOnChar]
      split
      · simp
      · split
        · simp
        · simp

theorem not_mem_of_mem_splitOnChar (sep : Char) (s : Str) :
    ∀ l ∈ splitOnChar sep s, sep ∉ l := by
  induction s with
  | nil =>
      intro l hl
      simp [splitOnChar] at hl
      simp [ hl]
  | cons c rest ih =>
      intro l hl
      simp only [splitOnChar] at hl
      by_cases hc : c = sep
      · rw [ if_pos hc] at hl
        rcases List.mem_cons.mp hl with h | h
        · simp [ h]
        · exact ih l h
      · rw [ if_neg hc] at hl
        rcases heq : splitOnChar sep rest with _ | ⟨w, ws⟩
        · exact absurd heq (splitOnChar_ne_nil sep rest)
        · rw [ heq] at hl
          rcases List.mem_cons.mp hl with h | h
          · subst h
            intro hmem
            rcases List.mem_cons.mp hmem with h | h
            · exact hc h.symm
            · exact ih w (by rw [ heq]; exact List.mem_cons_self w ws) h
          · exact ih l (by rw [ heq]; exact List.mem_cons_of_mem w h)

theorem splitOnChar_eq_single (sep : Char) (l : Str) (h : sep ∉ l) :
    splitOnChar sep l = [l] := by
  induction l with
  | nil => simp [splitOnChar]
  | cons c rest ih =>
      have hc : ¬ c = sep := fun hh => h (by simp [ hh])
      have hrest : sep ∉ rest := fun hh => h (List.mem_cons_of_mem c hh)
      simp only [splitOnChar, if_neg hc, ih hrest]

theorem splitOnChar_append_sep (sep : Char) (l t : Str) (h : sep ∉ l) :
    splitOnChar sep (l ++ sep :: t) = l :: splitOnChar sep t := by
  induction l with
  | nil => simp [splitOnChar]
  | cons c rest ih =>
      have hc : ¬ c = sep := fun hh => h (by simp [ hh])
      have hrest : sep ∉ rest := fun hh => h (List.mem_cons_of_mem c hh)
      simp only [List.cons_append, splitOnChar, if_neg hc, List.append_eq, ih hrest]

theorem splitOnChar_joinSep (sep : Char) (ls : List Str) (hne : ls ≠ [])
    (h : ∀ l ∈ ls, sep ∉ l) :
    splitOnChar sep (joinSep [sep] ls) = ls := by
  induction ls with
  | nil => exact absurd rfl hne
  | cons l rest ih =>
      cases rest with
      | nil =>
          simp only [joinSep]
          exact splitOnChar_eq_single sep l (h l (List.mem_cons_self l []))
      | cons l2 ls2 =>
          have : joinSep [sep] (l :: l2 :: ls2) = l ++ sep :: joinSep [sep] (l2 :: ls2) := by
            simp [joinSep]
          rw [ this, splitOnChar_append_sep sep l _ (h l (List.mem_cons_self l _))]
          rw [ih (by simp) (fun x hx => h x (List.mem_cons_of_mem l hx))]

theorem not_mem_replaceFirst (d : Char) (s p r : Str) (hs : d ∉ s) (hr : d ∉ r) :
    d ∉ replaceFirst s p r := by
  induction s with
  | nil =>
      simp only [replaceFirst]
      split
      · exact hr
      · simp
  | cons c rest ih =>
      simp only [replaceFirst]
      split
      · intro hmem
        rcases List.mem_append.mp hmem with h | h
        · exact hr h
        · exact hs (List.drop_subset _ _ h)
      · intro hmem
        rcases List.mem_cons.mp hmem with h | h
        · exact hs (by simp [ h])
        · exact ih (fun hh => hs (List.mem_cons_of_mem c hh)) h

/-- C10 counterexample: with a replacement role that itself contains a
newline (`"A\nB"`), a single-utterance correction does not preserve the
number of lines: the one-line transcript `X: hi` becomes a two-line one. -/
theorem c10_newline_role_counterexample :
    (splitNl (_correct_single_utterance (strL "X: hi") 0 (strL "X") (strL "A\nB") []).1).length = 2 ∧
    (splitNl (strL "X: hi")).length = 1 := by
  decide

/-- C10 (amended): provided the replacement role contains no newline
character, a single-utterance correction leaves every line except the one at
the given index byte-for-byte unchanged and preserves the number of lines,
rewrites only the first occurrence of `old_role:` within the targeted line,
and when the index is not less than the number of lines returns the whole
transcript unchanged logging `correction_error` (not `utterance_corrected`). -/
theorem c10_single_utterance_frame (t : Str) (idx : Nat) (oldR newR : Str)
    (log : List LogEntry) (hnl : '\n' ∉ newR) :
    ((splitNl t).length ≤ idx →
      _correct_single_utterance t idx oldR newR log =
        (t, log ++ [LogEntry.correctionError idx])) ∧
    (idx < (splitNl t).length →
      splitNl (_correct_single_utterance t idx oldR newR log).1 =
        (splitNl t).set idx
          (replaceFirst ((splitNl t).getD idx []) (oldR ++ [':']) (newR ++ [':'])) ∧
      (splitNl (_correct_single_utterance t idx oldR newR log).1).length =
        (splitNl t).length ∧
      (∀ j, j ≠ idx →
        (splitNl (_correct_single_utterance t idx oldR newR log).1)[j]? =
          (splitNl t)[j]?) ∧
      (splitNl (_correct_single_utterance t idx oldR newR log).1)[idx]? =
        some (replaceFirst ((splitNl t).getD idx []) (oldR ++ [':']) (newR ++ [':'])) ∧
      (_correct_single_utterance t idx oldR newR log).2 =
        log ++ [LogEntry.utteranceCorrected idx oldR newR ((splitNl t).getD idx [])
          (replaceFirst ((splitNl t).getD idx []) (oldR ++ [':']) (newR ++ [':']))]) := by
  constructor
  · intro h
    simp only [ _correct_single_utterance]
    rw [ if_pos h]
  · intro h
    have hne : ¬ (splitNl t).length ≤ idx := Nat.not_le.mpr h
    have hL : splitNl t ≠ [] := splitOnChar_ne_nil '\n' t
    have hres : _correct_single_utterance t idx oldR newR log =
        (joinNl ((splitNl t).set idx
            (replaceFirst ((splitNl t).getD idx []) (oldR ++ [':']) (newR ++ [':']))),
          log ++ [LogEntry.utteranceCorrected idx oldR newR ((splitNl t).getD idx [])
            (replaceFirst ((splitNl t).getD idx []) (oldR ++ [':']) (newR ++ [':']))]) := by
      simp only [ _correct_single_utterance]
      rw [ if_neg hne]
    have holdnl : '\n' ∉ (splitNl t).getD idx [] := by
      have : (splitNl t).getD idx [] ∈ splitNl t := by
        rw [List.getD_eq_getElem (splitNl t) [] h]
        exact List.getElem_mem h
      exact not_mem_of_mem_splitOnChar '\n' t _ this
    have hnewnl : '\n' ∉ newR ++ [':'] := by
      intro hmem
      rcases List.mem_append.mp hmem with h1 | h1
      · exact hnl h1
      · simp at h1
    have hnomem : ∀ l ∈ (splitNl t).set idx
        (replaceFirst ((splitNl t).getD idx []) (oldR ++ [':']) (newR ++ [':'])),
        '\n' ∉ l := by
      intro l hl
      rcases List.mem_or_eq_of_mem_set hl with h1 | h1
      · exact not_mem_of_mem_splitOnChar '\n' t l h1
      · rw [ h1]
        exact not_mem_replaceFirst '\n' _ _ _ holdnl hnewnl
    have hsetne : (splitNl t).set idx
        (replaceFirst ((splitNl t).getD idx []) (oldR ++ [':']) (newR ++ [':'])) ≠ [] :=
      List.ne_nil_of_length_pos (by rw [List.length_set]; exact List.length_pos.mpr hL)
    have hsplit : splitNl (joinNl ((splitNl t).set idx
        (replaceFirst ((splitNl t).getD idx []) (oldR ++ [':']) (newR ++ [':'])))) =
        (splitNl t).set idx
          (replaceFirst ((splitNl t).getD idx []) (oldR ++ [':']) (newR ++ [':'])) :=
      splitOnChar_joinSep '\n' _ hsetne hnomem
    rw [ hres]
    refine ⟨hsplit, ?_, ?_, ?_, rfl⟩
    · rw [ hsplit, List.length_set]
    · intro j hj
      rw [ hsplit]
      exact List.getElem?_set_ne (Ne.symm hj)
    · rw [ hsplit]
      exact List.getElem?_set_self h

/-- C10 witness: the frame theorem at the two-line transcript `A: x\nB: y`,
correcting line 1 from role `B` to role `Agent`. -/
theorem c10_single_utterance_frame_witness :
    ((splitNl (strL "A: x\nB: y")).length ≤ 1 →
      _correct_single_utterance (strL "A: x\nB: y") 1 (strL "B") (strL "Agent") [] =
        (strL "A: x\nB: y", [] ++ [LogEntry.correctionError 1])) ∧
    (1 < (splitNl (strL "A: x\nB: y")).length →
      splitNl (_correct_single_utterance (strL "A: x\nB: y") 1 (strL "B") (strL "Agent") []).1 =
        (splitNl (strL "A: x\nB: y")).set 1
          (replaceFirst ((splitNl (strL "A: x\nB: y")).getD 1 [])
            (strL "B" ++ [':']) (strL "Agent" ++ [':'])) ∧
      (splitNl (_correct_single_utterance (strL "A: x\nB: y") 1 (strL "B") (strL "Agent") []).1).length =
        (splitNl (strL "A: x\nB: y")).length ∧
      (∀ j, j ≠ 1 →
        (splitNl (_correct_single_utterance (strL "A: x\nB: y") 1 (strL "B") (strL "Agent") []).1)[j]? =
          (splitNl (strL "A: x\nB: y"))[j]?) ∧
      (splitNl (_correct_single_utterance (strL "A: x\nB: y") 1 (strL "B") (strL "Agent") []).1)[1]? =
        some (replaceFirst ((splitNl (strL "A: x\nB: y")).getD 1 [])
          (strL "B" ++ [':']) (strL "Agent" ++ [':'])) ∧
      (_correct_single_utterance (strL "A: x\nB: y") 1 (strL "B") (strL "Agent") []).2 =
        [] ++ [LogEntry.utteranceCorrected 1 (strL "B") (strL "Agent")
          ((splitNl (strL "A: x\nB: y")).getD 1 [])
          (replaceFirst ((splitNl (strL "A: x\nB: y")).getD 1 [])
            (strL "B" ++ [':']) (strL "Agent" ++ [':']))]) :=
  c10_single_utterance_frame (strL "A: x\nB: y") 1 (strL "B") (strL "Agent") [] (by decide)
theorem mem_insertUnique (l : List Str) (x y : Str) :
    y ∈ insertUnique l x ↔ y ∈ l ∨ y = x := by
  unfold insertUnique
  by_cases h : x ∈ l
  · rw [ if_pos h]
    constructor
    · exact Or.inl
    · rintro (h1 | h1)
      · exact h1
      · rw [ h1]
        exact h
  · rw [ if_neg h]
    simp

theorem nodup_insertUnique (l : List Str) (x : Str) (h : l.Nodup) :
    (insertUnique l x).Nodup := by
  unfold insertUnique
  by_cases hx : x ∈ l
  · rw [ if_pos hx]
    exact h
  · rw [ if_neg hx]
    simp [List.nodup_append, h, hx]

theorem mem_addLineLabel (acc : List Str) (line y : Str) :
    y ∈ addLineLabel acc line ↔ y ∈ acc ∨ lineLabel? line = some y := by
  unfold addLineLabel
  rcases hl : lineLabel? line with _ | lab
  · simp
  · rw [mem_insertUnique]
    simp only [Option.some.injEq]
    constructor
    · rintro (h1 | h1)
      · exact Or.inl h1
      · exact Or.inr h1.symm
    · rintro (h1 | h1)
      · exact Or.inl h1
      · exact Or.inr h1.symm

theorem mem_extract_labels_foldl (lines : List Str) (acc : List Str) (y : Str) :
    y ∈ lines.foldl addLineLabel acc ↔
      y ∈ acc ∨ ∃ line ∈ lines, lineLabel? line = some y := by
  induction lines generalizing acc with
  | nil => simp
  | cons l rest ih =>
      rw [List.foldl_cons, ih, mem_addLineLabel]
      constructor
      · rintro ((h | h) | ⟨line, hline, hl⟩)
        · exact Or.inl h
        · exact Or.inr ⟨l, List.mem_cons_self l rest, h⟩
        · exact Or.inr ⟨line, List.mem_cons_of_mem l hline, hl⟩
      · rintro (h | ⟨line, hline, hl⟩)
        · exact Or.inl (Or.inl h)
        · rcases List.mem_cons.mp hline with h1 | h1
          · subst h1
            exact Or.inl (Or.inr hl)
          · exact Or.inr ⟨line, h1, hl⟩

theorem nodup_extract_labels_foldl (lines : List Str) (acc : List Str) (h : acc.Nodup) :
    (lines.foldl addLineLabel acc).Nodup := by
  induction lines generalizing acc with
  | nil => exact h
  | cons l rest ih =>
      rw [List.foldl_cons]
      refine ih _ ?_
      unfold addLineLabel
      rcases lineLabel? l with _ | lab
      · exact h
      · exact nodup_insertUnique acc lab h

theorem lineLabel?_eq_some (line lab : Str) :
    lineLabel? line = some lab ↔
      pyStrip line ≠ [] ∧
      ((pyStrip line).takeWhile fun c => c ≠ ':') ≠ [] ∧
      ((pyStrip line).takeWhile fun c => c ≠ ':').length < (pyStrip line).length ∧
      lab = pyStrip ((pyStrip line).takeWhile fun c => c ≠ ':') := by
  simp only [lineLabel?]
  by_cases h1 : pyStrip line = []
  · simp [ h1]
  · rw [ if_neg h1]
    by_cases h2 : ((pyStrip line).takeWhile fun c => c ≠ ':') ≠ [] ∧
        ((pyStrip line).takeWhile fun c => c ≠ ':').length < (pyStrip line).length
    · rw [ if_pos h2]
      simp only [Option.some.injEq]
      constructor
      · intro he
        exact ⟨h1, h2.1, h2.2, he.symm⟩
      · intro hc
        exact hc.2.2.2.symm
    · rw [ if_neg h2]
      constructor
      · intro he
        exact absurd he (by simp)
      · intro hc
        exact absurd ⟨hc.2.1, hc.2.2.1⟩ h2

/-- C9 counterexample: the line `: hello` is non-empty after trimming and
contains a colon, and the trimmed prefix before its first colon is the empty
string, so the set the claim describes is the one-element set holding the
empty label — but the Label Extractor (whose regex needs a non-empty prefix)
returns the empty set. -/
theorem c9_leading_colon_counterexample :
    _extract_speaker_labels (strL ": hello") = [] ∧
    labelsSpecLiteral (strL ": hello") = [[]] ∧
    pyStrip (strL ": hello") ≠ [] ∧
    ':' ∈ pyStrip (strL ": hello") ∧
    pyStrip ((pyStrip (strL ": hello")).takeWhile fun c => c ≠ ':') = [] := by
  refine ⟨by decide, by decide, by decide, by decide, by decide⟩

/-- C9 (amended): the Label Extractor returns exactly the duplicate-free set
of distinct trimmed prefixes before the first colon, taken over the lines
that are non-empty after trimming and whose first colon exists and is
preceded by at least one character (lines without a colon, or whose trimmed
form starts with the colon, contribute no label); it is a total function and
yields the empty set when no line qualifies. -/
theorem c9_extract_labels_membership (t : Str) :
    (_extract_speaker_labels t).Nodup ∧
    ∀ lab, lab ∈ _extract_speaker_labels t ↔
      ∃ line ∈ splitNl t,
        pyStrip line ≠ [] ∧
        ((pyStrip line).takeWhile fun c => c ≠ ':') ≠ [] ∧
        ((pyStrip line).takeWhile fun c => c ≠ ':').length < (pyStrip line).length ∧
        lab = pyStrip ((pyStrip line).takeWhile fun c => c ≠ ':') := by
  constructor
  · exact nodup_extract_labels_foldl (splitNl t) [] List.nodup_nil
  · intro lab
    unfold _extract_speaker_labels
    rw [mem_extract_labels_foldl]
    constructor
    · rintro (h | ⟨line, hline, hl⟩)
      · exact absurd h (List.not_mem_nil lab)
      · exact ⟨line, hline, (lineLabel?_eq_some line lab).mp hl⟩
    · rintro ⟨line, hline, hl⟩
      exact Or.inr ⟨line, hline, (lineLabel?_eq_some line lab).mpr hl⟩
theorem findUtteranceGo_eq_none_iff (role pre : Str) (mw : Nat) (i : Nat) (ls : List Str) :
    findUtteranceGo role pre mw i ls = none ↔
      ∀ l ∈ ls, utteranceLineMatches role pre mw l = false := by
  induction ls generalizing i with
  | nil => simp [findUtteranceGo]
  | cons l rest ih =>
      simp only [findUtteranceGo]
      by_cases hm : utteranceLineMatches role pre mw l = true
      · rw [ if_pos hm]
        constructor
        · intro h
          exact absurd h (by simp)
        · intro h
          exact absurd (h l (List.mem_cons_self l rest)) (by simp [ hm])
      · rw [ if_neg hm, ih (i + 1)]
        constructor
        · intro h x hx
          rcases List.mem_cons.mp hx with h1 | h1
          · subst h1
            exact Bool.eq_false_iff.mpr hm
          · exact h x h1
        · intro h x hx
          exact h x (List.mem_cons_of_mem l hx)

theorem findUtteranceGo_eq_some (role pre : Str) (mw : Nat) (i j : Nat) (s : Str)
    (ls : List Str) (h : findUtteranceGo role pre mw i ls = some (j, s)) :
    ∃ k, k < ls.length ∧ j = i + k ∧
      utteranceLineMatches role pre mw (ls.getD k []) = true ∧
      s = pyStrip (ls.getD k []) ∧
      ∀ k2, k2 < k → utteranceLineMatches role pre mw (ls.getD k2 []) = false := by
  induction ls generalizing i with
  | nil => exact absurd h (by simp [findUtteranceGo])
  | cons l rest ih =>
      simp only [findUtteranceGo] at h
      by_cases hm : utteranceLineMatches role pre mw l = true
      · rw [ if_pos hm] at h
        have hpair : (i, pyStrip l) = (j, s) := Option.some.inj h
        have hi : i = j := congrArg Prod.fst hpair
        have hsl : pyStrip l = s := congrArg Prod.snd hpair
        refine ⟨0, by simp, by omega, by simpa using hm, by simp [hsl.symm], ?_⟩
        intro k2 hk2
        omega
      · rw [ if_neg hm] at h
        obtain ⟨k, hk, hj, hmk, hs, hbefore⟩ := ih (i + 1) h
        refine ⟨k + 1, by simpa using Nat.succ_lt_succ hk, by omega, by simpa using hmk,
          by simpa using hs, ?_⟩
        intro k2 hk2
        cases k2 with
        | zero => simpa using Bool.eq_false_iff.mpr hm
        | succ k3 =>
            have := hbefore k3 (by omega)
            simpa using this

/-- C7: the utterance-location function returns the first line in document
order whose trimmed text is non-blank, begins with the literal prefix
`current_role:`, and whose leading k words — lower-cased, whitespace
tokenized, with k = min(10, number of words in the supplied prefix) — equal
the lower-cased tokens of the supplied prefix word for word; it returns
`none` exactly when no line matches, and the match is plain list equality
on whole tokens (no fuzzy or partial-token matching). -/
theorem c7_find_utterance_first_match (t role pre : Str) :
    (∀ line, utteranceLineMatches role pre 10 line = true ↔
      pyStrip line ≠ [] ∧ (role ++ [':']) <+: pyStrip line ∧
      ((splitWs (lowerStr (pyStrip ((pyStrip line).drop (role ++ [':']).length)))).take 10).take
          (min 10 (splitWs (lowerStr (pyStrip pre))).length) =
        (splitWs (lowerStr (pyStrip pre))).take 10) ∧
    (findUtteranceByPrefix t role pre 10 = none ↔
      ∀ line ∈ splitNl t, utteranceLineMatches role pre 10 line = false) ∧
    (∀ j s, findUtteranceByPrefix t role pre 10 = some (j, s) →
      j < (splitNl t).length ∧
      utteranceLineMatches role pre 10 ((splitNl t).getD j []) = true ∧
      s = pyStrip ((splitNl t).getD j []) ∧
      ∀ k, k < j → utteranceLineMatches role pre 10 ((splitNl t).getD k []) = false) := by
  refine ⟨?_, ?_, ?_⟩
  · intro line
    simp only [utteranceLineMatches, prefixTokens]
    by_cases h1 : pyStrip line = []
    · simp [ h1]
    · rw [ if_neg h1]
      by_cases h2 : (role ++ [':']) <+: pyStrip line
      · rw [ if_pos h2]
        rw [decide_eq_true_eq, List.length_take]
        constructor
        · intro h
          exact ⟨h1, h2, h⟩
        · intro h
          exact h.2.2
      · rw [ if_neg h2]
        constructor
        · intro h
          exact absurd h (by simp)
        · intro h
          exact absurd h.2.1 h2
  · exact findUtteranceGo_eq_none_iff role pre 10 0 (splitNl t)
  · intro j s h
    obtain ⟨k, hk, hj, hm, hs, hb⟩ :=
      findUtteranceGo_eq_some role pre 10 0 j s (splitNl t) h
    have hkj : k = j := by omega
    subst hkj
    exact ⟨hk, hm, hs, hb⟩
theorem correct_single_utterance_log (t : Str) (i : Nat) (o n : Str) (log : List LogEntry) :
    ∃ e, (_correct_single_utterance t i o n log).2 = log ++ [e] ∧
      isIterationEntry e = false := by
  simp only [ _correct_single_utterance]
  by_cases h : (splitNl t).length ≤ i
  · rw [ if_pos h]
    exact ⟨LogEntry.correctionError i, rfl, rfl⟩
  · rw [ if_neg h]
    exact ⟨LogEntry.utteranceCorrected i o n ((splitNl t).getD i [])
      (replaceFirst ((splitNl t).getD i []) (o ++ [':']) (n ++ [':'])), rfl, rfl⟩

theorem processToolCall_log (tr : Str) (cors : List Correction) (log : List LogEntry)
    (c : ToolCall) :
    ∃ tr2 cors2 δ, processToolCall (tr, cors, log) c = (tr2, cors2, log ++ δ) ∧
      δ.countP isIterationEntry = 0 := by
  simp only [processToolCall]
  by_cases hname : c.name = correctSpeakerRoleName
  · rw [ if_pos hname]
    rcases hfind : findUtteranceByPrefix tr c.currentRole c.utterancePrefix 10 with _ | found
    · exact ⟨tr, cors,
        [LogEntry.toolCallEntry c.name c.currentRole c.utterancePrefix c.correctRole c.reason,
         LogEntry.utteranceNotFound c.currentRole c.utterancePrefix],
        by simp, rfl⟩
    · obtain ⟨e, he, hie⟩ := correct_single_utterance_log tr found.1 c.currentRole c.correctRole
        (log ++ [LogEntry.toolCallEntry c.name c.currentRole c.utterancePrefix c.correctRole c.reason])
      refine ⟨(_correct_single_utterance tr found.1 c.currentRole c.correctRole
          (log ++ [LogEntry.toolCallEntry c.name c.currentRole c.utterancePrefix c.correctRole c.reason])).1,
        cors ++ [⟨c.currentRole, c.correctRole, c.reason⟩],
        [LogEntry.toolCallEntry c.name c.currentRole c.utterancePrefix c.correctRole c.reason, e],
        ?_, ?_⟩
      · rw [Prod.ext_iff]
        refine ⟨rfl, ?_⟩
        rw [Prod.ext_iff]
        refine ⟨rfl, ?_⟩
        simp only [ he]
        simp
      · have htc : isIterationEntry (LogEntry.toolCallEntry c.name c.currentRole
            c.utterancePrefix c.correctRole c.reason) = false := rfl
        simp [List.countP_cons, hie, htc]
  · rw [ if_neg hname]
    exact ⟨tr, cors,
      [LogEntry.toolCallEntry c.name c.currentRole c.utterancePrefix c.correctRole c.reason],
      rfl, rfl⟩

theorem foldl_processToolCall_log (calls : List ToolCall) :
    ∀ (tr : Str) (cors : List Correction) (log : List LogEntry),
    ∃ tr2 cors2 δ, calls.foldl processToolCall (tr, cors, log) = (tr2, cors2, log ++ δ) ∧
      δ.countP isIterationEntry = 0 := by
  induction calls with
  | nil => exact fun tr cors log => ⟨tr, cors, [], by simp, rfl⟩
  | cons c rest ih =>
      intro tr cors log
      obtain ⟨tr1, cors1, δ1, h1, h1c⟩ := processToolCall_log tr cors log c
      obtain ⟨tr2, cors2, δ2, h2, h2c⟩ := ih tr1 cors1 (log ++ δ1)
      refine ⟨tr2, cors2, δ1 ++ δ2, ?_, ?_⟩
      · rw [List.foldl_cons, h1, h2, List.append_assoc]
      · simp [List.countP_append, h1c, h2c]

theorem safeguardLoopAux_log (svc : Nat → SvcResponse) :
    ∀ (rem i : Nat) (tr : Str) (cors : List Correction) (log : List LogEntry),
    ∃ tr2 cors2 δ, safeguardLoopAux svc rem i tr cors log = (tr2, cors2, log ++ δ) ∧
      δ.countP isIterationEntry ≤ rem := by
  intro rem
  induction rem with
  | zero =>
      intro i tr cors log
      exact ⟨tr, cors, [], by simp [safeguardLoopAux], by simp⟩
  | succ n ih =>
      intro i tr cors log
      rcases hsvc : svc i with msg | content | calls <;>
        simp only [safeguardLoopAux, hsvc]
      · refine ⟨tr, cors, [LogEntry.safeguardIteration (i + 1), LogEntry.safeguardError msg],
          by simp, ?_⟩
        simp [List.countP_cons, isIterationEntry, stepName]
      · refine ⟨tr, cors, [LogEntry.safeguardIteration (i + 1),
          LogEntry.safeguardComplete (completeMessage cors) cors.length], by simp, ?_⟩
        simp [List.countP_cons, isIterationEntry, stepName]
      · by_cases hcalls : calls = []
        · rw [ if_pos hcalls]
          refine ⟨tr, cors, [LogEntry.safeguardIteration (i + 1),
            LogEntry.safeguardComplete (completeMessage cors) cors.length], by simp, ?_⟩
          simp [List.countP_cons, isIterationEntry, stepName]
        · rw [ if_neg hcalls]
          obtain ⟨tr1, cors1, δf, hf, hfc⟩ := foldl_processToolCall_log calls tr cors
            (log ++ [LogEntry.safeguardIteration (i + 1)] ++
              [LogEntry.toolCallsRequested calls.length])
          rw [ hf]
          by_cases hcond : cors1 ≠ [] ∧ i < maxIterations - 1
          · rw [ if_pos hcond]
            obtain ⟨tr2, cors2, δr, hr, hrc⟩ := ih (i + 1) tr1 cors1
              (log ++ [LogEntry.safeguardIteration (i + 1)] ++
                [LogEntry.toolCallsRequested calls.length] ++ δf)
            refine ⟨tr2, cors2,
              [LogEntry.safeguardIteration (i + 1)] ++
                [LogEntry.toolCallsRequested calls.length] ++ δf ++ δr, ?_, ?_⟩
            · rw [ hr]
              simp [List.append_assoc]
            · have h1 : isIterationEntry (LogEntry.safeguardIteration (i + 1)) = true := rfl
              have h2 : isIterationEntry (LogEntry.toolCallsRequested calls.length) = false := rfl
              simp [List.countP_append, List.countP_cons, h1, h2, hfc]
              omega
          · rw [ if_neg hcond]
            refine ⟨tr1, cors1,
              [LogEntry.safeguardIteration (i + 1)] ++
                [LogEntry.toolCallsRequested calls.length] ++ δf, ?_, ?_⟩
            · simp [List.append_assoc]
            · have h1 : isIterationEntry (LogEntry.safeguardIteration (i + 1)) = true := rfl
              have h2 : isIterationEntry (LogEntry.toolCallsRequested calls.length) = false := rfl
              simp [List.countP_append, List.countP_cons, h1, h2, hfc]

theorem safeguardLoopAux_truncate (svc : Nat → SvcResponse) :
    ∀ (rem i : Nat), i + rem ≤ 3 →
    ∀ (tr : Str) (cors : List Correction) (log : List LogEntry),
    safeguardLoopAux svc rem i tr cors log =
      safeguardLoopAux (fun j => if j < 3 then svc j else SvcResponse.failure []) rem i tr cors log := by
  intro rem
  induction rem with
  | zero =>
      intro i h tr cors log
      simp [safeguardLoopAux]
  | succ n ih =>
      intro i h tr cors log
      have hi : i < 3 := by omega
      rcases hsvc : svc i with msg | content | calls
      · simp [safeguardLoopAux, hsvc, hi]
      · simp [safeguardLoopAux, hsvc, hi]
      · simp only [safeguardLoopAux, hsvc, hi, if_true]
        by_cases hcalls : calls = []
        · rw [ if_pos hcalls, if_pos hcalls]
        · rw [ if_neg hcalls, if_neg hcalls]
          obtain ⟨tr1, cors1, δf, hf, _⟩ := foldl_processToolCall_log calls tr cors
            (log ++ [LogEntry.safeguardIteration (i + 1)] ++
              [LogEntry.toolCallsRequested calls.length])
          rw [ hf]
          by_cases hcond : cors1 ≠ [] ∧ i < maxIterations - 1
          · rw [ if_pos hcond, if_pos hcond]
            exact ih (i + 1) (by omega) tr1 cors1 _
          · rw [ if_neg hcond, if_neg hcond]

/-- C6: one run of the safeguard corrector always terminates with a final
`safeguard_end` entry carrying the full corrections list and its count, logs
at most 3 `safeguard_iteration` entries, and its outcome depends only on the
service's first 3 responses (so it performs at most 3 round trips) —
whatever the transcript, the roles and the service behaviour. -/
theorem c6_safeguard_at_most_three_iterations (svc : Nat → SvcResponse) (t : Str)
    (roles : List Str) (log0 : List LogEntry) :
    (∃ δ cors,
      (run_safeguard_validation svc t roles log0).2 =
        log0 ++ [LogEntry.safeguardStart roles] ++ δ ++
          [LogEntry.safeguardEnd cors cors.length] ∧
      δ.countP isIterationEntry ≤ 3) ∧
    run_safeguard_validation svc t roles log0 =
      run_safeguard_validation (fun j => if j < 3 then svc j else SvcResponse.failure [])
        t roles log0 := by
  constructor
  · obtain ⟨tr2, cors2, δ, hδ, hc⟩ := safeguardLoopAux_log svc maxIterations 0 t []
      (log0 ++ [LogEntry.safeguardStart roles])
    refine ⟨δ, cors2, ?_, hc⟩
    simp only [run_safeguard_validation, hδ]
  · simp only [run_safeguard_validation]
    rw [safeguardLoopAux_truncate svc maxIterations 0 (by simp [maxIterations]) t []
      (log0 ++ [LogEntry.safeguardStart roles])]
theorem lexLt_irrefl (s : Str) : lexLt s s = false := by
  induction s with
  | nil => rfl
  | cons c rest ih => simp [lexLt, ih]

theorem lexLt_trans {a b c : Str} (h1 : lexLt a b = true) (h2 : lexLt b c = true) :
    lexLt a c = true := by
  induction a generalizing b c with
  | nil =>
      cases b with
      | nil => exact absurd h1 (by simp [lexLt])
      | cons y bs =>
          cases c with
          | nil => exact absurd h2 (by simp [lexLt])
          | cons z cs => simp [lexLt]
  | cons x as ih =>
      cases b with
      | nil => exact absurd h1 (by simp [lexLt])
      | cons y bs =>
          cases c with
          | nil => exact absurd h2 (by simp [lexLt])
          | cons z cs =>
              simp only [lexLt, Bool.or_eq_true, Bool.and_eq_true, decide_eq_true_eq] at h1 h2 ⊢
              rcases h1 with h1 | ⟨h1e, h1r⟩
              · rcases h2 with h2 | ⟨h2e, h2r⟩
                · exact Or.inl (lt_trans h1 h2)
                · exact Or.inl (h2e ▸ h1)
              · rcases h2 with h2 | ⟨h2e, h2r⟩
                · exact Or.inl (h1e ▸ h2)
                · exact Or.inr ⟨h1e.trans h2e, ih h1r h2r⟩

theorem lexLt_total (a b : Str) : lexLt a b = true ∨ a = b ∨ lexLt b a = true := by
  induction a generalizing b with
  | nil =>
      cases b with
      | nil => exact Or.inr (Or.inl rfl)
      | cons y bs => exact Or.inl (by simp [lexLt])
  | cons x as ih =>
      cases b with
      | nil => exact Or.inr (Or.inr (by simp [lexLt]))
      | cons y bs =>
          rcases lt_trichotomy x y with hxy | hxy | hxy
          · exact Or.inl (by simp [lexLt, hxy])
          · rcases ih bs with h | h | h
            · exact Or.inl (by simp [lexLt, hxy, h])
            · exact Or.inr (Or.inl (by rw [ hxy, h]))
            · exact Or.inr (Or.inr (by simp [lexLt, hxy.symm, h]))
          · exact Or.inr (Or.inr (by simp [lexLt, hxy]))

theorem lexLt_asymm {a b : Str} (h : lexLt a b = true) : lexLt b a = false := by
  by_contra hc
  have hba : lexLt b a = true := by
    cases hx : lexLt b a
    · exact absurd hx hc
    · rfl
  have := lexLt_trans h hba
  rw [lexLt_irrefl] at this
  exact absurd this (by simp)

theorem lexLt_of_ne_of_isPrefix {s t : Str} (hpre : s <+: t) (hne : s ≠ t) :
    lexLt s t = true := by
  induction s generalizing t with
  | nil =>
      cases t with
      | nil => exact absurd rfl hne
      | cons y ts => simp [lexLt]
  | cons x ss ih =>
      cases t with
      | nil => exact absurd (List.prefix_nil.mp hpre) hne
      | cons y ts =>
          obtain ⟨hxy, hpre2⟩ := List.cons_prefix_cons.mp hpre
          subst hxy
          have hne2 : ss ≠ ts := fun h => hne (by rw [ h])
          simp [lexLt, ih hpre2 hne2]

theorem mem_insertDesc (x y : Str) (l : List Str) :
    y ∈ insertDesc x l ↔ y = x ∨ y ∈ l := by
  induction l with
  | nil => simp [insertDesc]
  | cons z zs ih =>
      simp only [insertDesc]
      by_cases h : lexLt z x = true
      · rw [ if_pos h]
        simp
      · rw [ if_neg h]
        simp only [List.mem_cons, ih]
        tauto

theorem mem_sortDesc (y : Str) (l : List Str) : y ∈ sortDesc l ↔ y ∈ l := by
  induction l with
  | nil => simp [sortDesc]
  | cons z zs ih =>
      rw [show sortDesc (z :: zs) = insertDesc z (sortDesc zs) from rfl]
      rw [mem_insertDesc, ih, List.mem_cons]

theorem pairwise_insertDesc (x : Str) (l : List Str)
    (h : l.Pairwise fun a b => lexLt a b = false) :
    (insertDesc x l).Pairwise fun a b => lexLt a b = false := by
  induction l with
  | nil => simp [insertDesc]
  | cons z zs ih =>
      rcases List.pairwise_cons.mp h with ⟨hz, hzs⟩
      simp only [insertDesc]
      by_cases hzx : lexLt z x = true
      · rw [ if_pos hzx]
        refine List.pairwise_cons.mpr ⟨?_, h⟩
        intro b hb
        rcases List.mem_cons.mp hb with hb | hb
        · subst hb
          exact lexLt_asymm hzx
        · by_contra hc
          have hxb : lexLt x b = true := by
            cases hx : lexLt x b
            · exact absurd hx hc
            · rfl
          have hzb := hz b hb
          rcases lexLt_total z b with h1 | h1 | h1
          · exact absurd h1 (by simp [ hzb])
          · subst h1
            rw [lexLt_asymm hxb] at hzx
            exact absurd hzx (by simp)
          · have := lexLt_trans hxb h1
            rw [lexLt_asymm hzx] at this
            exact absurd this (by simp)
      · rw [ if_neg hzx]
        refine List.pairwise_cons.mpr ⟨?_, ih hzs⟩
        intro b hb
        rcases (mem_insertDesc x b zs).mp hb with hb | hb
        · subst hb
          cases hx : lexLt z b
          · rfl
          · exact absurd hx (by simp [ hzx])
        · exact hz b hb

theorem pairwise_sortDesc (l : List Str) :
    (sortDesc l).Pairwise fun a b => lexLt a b = false := by
  induction l with
  | nil => simp [sortDesc]
  | cons z zs ih => exact pairwise_insertDesc z (sortDesc zs) ih

theorem sortDesc_prefix_comes_later {l : List Str} {s t : Str}
    (hs : s ∈ l) (ht : t ∈ l) (hne : s ≠ t) (hpre : s <+: t) :
    ∃ l1 l2, sortDesc l = l1 ++ t :: l2 ∧ s ∈ l2 := by
  obtain ⟨l1, l2, hsplit⟩ := List.append_of_mem ((mem_sortDesc t l).mpr ht)
  refine ⟨l1, l2, hsplit, ?_⟩
  have hsmem : s ∈ l1 ++ t :: l2 := by
    rw [← hsplit]
    exact (mem_sortDesc s l).mpr hs
  rcases List.mem_append.mp hsmem with h1 | h1
  · exfalso
    have hpw := pairwise_sortDesc l
    rw [ hsplit] at hpw
    have := (List.pairwise_append.mp hpw).2.2 s h1 t (List.mem_cons_self t l2)
    rw [lexLt_of_ne_of_isPrefix hpre hne] at this
    exact absurd this (by simp)
  · rcases List.mem_cons.mp h1 with h2 | h2
    · exact absurd h2 hne
    · exact h2

theorem drop_append_le {a b : Str} {n : Nat} (h : n ≤ a.length) :
    List.drop n (a ++ b) = List.drop n a ++ b := by
  induction a generalizing n with
  | nil =>
      have hn : n = 0 := by simpa using h
      simp [ hn]
  | cons c as ih =>
      cases n with
      | zero => simp
      | succ m =>
          simp only [List.cons_append, List.drop_succ_cons]
          exact ih (by simpa using h)

theorem infix_append_split {x a b : Str} (h : x <:+: a ++ b) :
    x <:+: b ∨ ∃ i, i < a.length ∧ x <+: (List.drop i a ++ b) := by
  obtain ⟨u, v, huv⟩ := h
  have huv2 : u ++ (x ++ v) = a ++ b := by
    rw [← List.append_assoc]
    exact huv
  by_cases hu : a.length ≤ u.length
  · left
    have hb : List.drop a.length u ++ (x ++ v) = b := by
      have h1 : List.drop a.length (a ++ b) = b := List.drop_left' rfl
      rw [← h1, ← huv2, drop_append_le hu]
    exact ⟨List.drop a.length u, v, by rw [List.append_assoc]; exact hb⟩
  · right
    push_neg at hu
    refine ⟨u.length, hu, ?_⟩
    have h1 : List.drop u.length (a ++ b) = List.drop u.length a ++ b :=
      drop_append_le (le_of_lt hu)
    have h2 : List.drop u.length (u ++ (x ++ v)) = x ++ v := List.drop_left' rfl
    have h3 : List.drop u.length a ++ b = x ++ v := by
      rw [← h1, ← huv2, h2]
    exact ⟨v, h3.symm⟩

theorem replaceAllF_of_no_occurrence {p r : Str} :
    ∀ (fuel : Nat) (s : Str), ¬ p <:+: s → replaceAllF p r fuel s = s := by
  intro fuel
  induction fuel with
  | zero =>
      intro s h
      cases s with
      | nil => rfl
      | cons c rest => rfl
  | succ n ih =>
      intro s h
      cases s with
      | nil => rfl
      | cons c rest =>
          simp only [replaceAllF]
          rw [ if_neg (fun hp => h hp.isInfix)]
          rw [ih rest (fun hi => h (List.infix_cons_iff.mpr (Or.inr hi)))]

theorem replaceAllF_no_suffix_prefix {x p r : Str}
    (hStraddle : ∀ q1 q2, x = q1 ++ q2 → q1 ≠ [] → q2 ≠ [] → ∀ u, ¬ q2 <+: (r ++ u)) :
    ∀ (fuel : Nat) (s q1 q2 : Str), x = q1 ++ q2 → q1 ≠ [] → q2 ≠ [] →
      ¬ q2 <+: s → ¬ q2 <+: replaceAllF p r fuel s := by
  intro fuel
  induction fuel with
  | zero =>
      intro s q1 q2 hx hq1 hq2 hqs
      cases s with
      | nil =>
          intro hcon
          exact hq2 (List.prefix_nil.mp hcon)
      | cons c rest => exact hqs
  | succ n ih =>
      intro s q1 q2 hx hq1 hq2 hqs
      cases s with
      | nil =>
          intro hcon
          exact hq2 (List.prefix_nil.mp hcon)
      | cons c rest =>
          simp only [replaceAllF]
          by_cases hb : p <+: c :: rest
          · rw [ if_pos hb]
            exact hStraddle q1 q2 hx hq1 hq2 _
          · rw [ if_neg hb]
            intro hcon
            cases q2 with
            | nil => exact hq2 rfl
            | cons d q2t =>
                obtain ⟨hdc, hq2t⟩ := List.cons_prefix_cons.mp hcon
                subst hdc
                by_cases hq2t0 : q2t = []
                · subst hq2t0
                  exact hqs (List.cons_prefix_cons.mpr ⟨rfl, List.nil_prefix⟩)
                · have hnxs : ¬ q2t <+: rest := by
                    intro h2
                    exact hqs (List.cons_prefix_cons.mpr ⟨rfl, h2⟩)
                  have hx2 : x = (q1 ++ [d]) ++ q2t := by
                    rw [List.append_assoc]
                    simpa using hx
                  exact ih rest (q1 ++ [d]) q2t hx2 (by simp) hq2t0 hnxs hq2t

theorem replaceAllF_no_occurrence {x p r : Str} (hx : x ≠ [])
    (hInner : ∀ i, i < r.length → ∀ u, ¬ x <+: (List.drop i r ++ u))
    (hStraddle : ∀ q1 q2, x = q1 ++ q2 → q1 ≠ [] → q2 ≠ [] → ∀ u, ¬ q2 <+: (r ++ u)) :
    ∀ (fuel : Nat) (s : Str), s.length ≤ fuel → (x = p ∨ ¬ x <:+: s) →
      ¬ x <:+: replaceAllF p r fuel s := by
  intro fuel
  induction fuel with
  | zero =>
      intro s hlen hd
      have hs : s = [] := List.length_eq_zero.mp (Nat.le_zero.mp hlen)
      subst hs
      intro hcon
      exact hx (List.infix_nil.mp hcon)
  | succ n ih =>
      intro s hlen hd
      cases s with
      | nil =>
          intro hcon
          exact hx (List.infix_nil.mp hcon)
      | cons c rest =>
          simp only [replaceAllF]
          by_cases hb : p <+: c :: rest
          · rw [ if_pos hb]
            intro hcon
            rcases infix_append_split hcon with h1 | ⟨i, hi, hpre⟩
            · have hdropsuffix : List.drop (p.length - 1) rest <:+ c :: rest :=
                (List.drop_suffix (p.length - 1) rest).trans (List.suffix_cons c rest)
              have hlen2 : (List.drop (p.length - 1) rest).length ≤ n := by
                have := List.length_drop (p.length - 1) rest
                simp only [List.length_cons] at hlen
                omega
              refine ih (List.drop (p.length - 1) rest) hlen2 ?_ h1
              rcases hd with he | hni
              · exact Or.inl he
              · exact Or.inr fun h2 => hni (h2.trans hdropsuffix.isInfix)
            · exact hInner i hi _ hpre
          · rw [ if_neg hb]
            intro hcon
            rcases List.infix_cons_iff.mp hcon with hpre | hinf
            · cases x with
              | nil => exact hx rfl
              | cons d xs =>
                  obtain ⟨hdc, hxs⟩ := List.cons_prefix_cons.mp hpre
                  subst hdc
                  by_cases hxs0 : xs = []
                  · subst hxs0
                    rcases hd with he | hni
                    · exact hb (he ▸ List.cons_prefix_cons.mpr ⟨rfl, List.nil_prefix⟩)
                    · exact hni (List.cons_prefix_cons.mpr ⟨rfl, List.nil_prefix⟩).isInfix
                  · have hnxs : ¬ xs <+: rest := by
                      intro h2
                      rcases hd with he | hni
                      · exact hb (he ▸ List.cons_prefix_cons.mpr ⟨rfl, h2⟩)
                      · exact hni (List.cons_prefix_cons.mpr ⟨rfl, h2⟩).isInfix
                    exact replaceAllF_no_suffix_prefix hStraddle n rest [d] xs rfl
                      (by simp) hxs0 hnxs hxs
            · have hlen2 : rest.length ≤ n := by
                simp only [List.length_cons] at hlen
                omega
              refine ih rest hlen2 ?_ hinf
              rcases hd with he | hni
              · exact Or.inl he
              · exact Or.inr fun h2 => hni (List.infix_cons_iff.mpr (Or.inr h2))

theorem replaceAll_of_no_occurrence {s p r : Str} (h : ¬ p <:+: s) : replaceAll s p r = s :=
  replaceAllF_of_no_occurrence s.length s h

theorem head_notMem_no_inner_occurrence {x r : Str} (hx : x ≠ [])
    (hchars : ∀ c ∈ r, x.head? ≠ some c) :
    ∀ i, i < r.length → ∀ u, ¬ x <+: (List.drop i r ++ u) := by
  intro i hi u hcon
  rw [List.drop_eq_getElem_cons hi, List.cons_append] at hcon
  cases x with
  | nil => exact hx rfl
  | cons d xs =>
      obtain ⟨hd, _⟩ := List.cons_prefix_cons.mp hcon
      exact hchars r[i] (List.getElem_mem hi) (by rw [List.head?_cons, hd])

theorem tail_notMem_no_straddle {x r : Str} (hr : r ≠ [])
    (hchars : ∀ c ∈ x.tail, r.head? ≠ some c) :
    ∀ q1 q2, x = q1 ++ q2 → q1 ≠ [] → q2 ≠ [] → ∀ u, ¬ q2 <+: (r ++ u) := by
  intro q1 q2 hx12 hq1 hq2 u hcon
  cases q2 with
  | nil => exact hq2 rfl
  | cons d q2t =>
      cases r with
      | nil => exact hr rfl
      | cons r0 rt =>
          rw [List.cons_append] at hcon
          obtain ⟨hd, _⟩ := List.cons_prefix_cons.mp hcon
          cases q1 with
          | nil => exact hq1 rfl
          | cons a q1t =>
              have hdmem : d ∈ (a :: q1t ++ d :: q2t : Str).tail := by
                simp
              rw [← hx12] at hdmem
              exact hchars d hdmem (by rw [List.head?_cons, hd])

/-- C4: the Label Substitution Engine processes mapping keys in descending
lexicographic order — for any mapping whose keys include a label `s` that is
a literal prefix of another key `t`, the sort puts `t` strictly before `s` —
and on the exemplar mapping (Speaker 1 to Agent, Speaker 10 to Customer),
for every transcript the result is the longer pattern `Speaker 10:`
replaced first (by its own role `Customer:`) and the shorter `Speaker 1:`
replaced only afterwards, and no occurrence of `Speaker 10:` survives or is
corrupted into the output. -/
theorem c4_descending_order_protects_prefix_labels (keys : List Str) (s t text : Str)
    (hs : s ∈ keys) (ht : t ∈ keys) (hne : s ≠ t) (hpre : s <+: t) :
    (∃ l1 l2, sortDesc keys = l1 ++ t :: l2 ∧ s ∈ l2) ∧
    (_replace_speakers text prefixPairMapping []).1 =
      replaceAll (replaceAll text (strL "Speaker 10:") (strL "Customer:"))
        (strL "Speaker 1:") (strL "Agent:") ∧
    ¬ strL "Speaker 10:" <:+: (_replace_speakers text prefixPairMapping []).1 := by
  have hb : (_replace_speakers text prefixPairMapping []).1 =
      replaceAll (replaceAll text (strL "Speaker 10:") (strL "Customer:"))
        (strL "Speaker 1:") (strL "Agent:") := by
    have hkeys : sortDesc (dictKeys prefixPairMapping) =
        [strL "Speaker 10", strL "Speaker 1"] := by decide
    have hrole10 : dictGet prefixPairMapping (strL "Speaker 10") = strL "Customer" := by
      decide
    have hrole1 : dictGet prefixPairMapping (strL "Speaker 1") = strL "Agent" := by decide
    have hpat10 : strL "Speaker 10" ++ [':'] = strL "Speaker 10:" := by decide
    have hpat1 : strL "Speaker 1" ++ [':'] = strL "Speaker 1:" := by decide
    have hpatC : strL "Customer" ++ [':'] = strL "Customer:" := by decide
    have hpatA : strL "Agent" ++ [':'] = strL "Agent:" := by decide
    simp only [ _replace_speakers, hkeys, List.foldl_cons, List.foldl_nil,
      replaceSpeakersStep, hrole10, hrole1, hpat10, hpat1, hpatC, hpatA]
    by_cases h1 : strL "Speaker 10:" <:+: text
    · rw [ if_pos h1]
      dsimp only
      by_cases h2 : strL "Speaker 1:" <:+:
          replaceAll text (strL "Speaker 10:") (strL "Customer:")
      · rw [ if_pos h2]
      · rw [ if_neg h2, replaceAll_of_no_occurrence h2]
    · rw [ if_neg h1, replaceAll_of_no_occurrence h1]
      dsimp only
      by_cases h2 : strL "Speaker 1:" <:+: text
      · rw [ if_pos h2]
      · rw [ if_neg h2, replaceAll_of_no_occurrence h2]
  refine ⟨sortDesc_prefix_comes_later hs ht hne hpre, hb, ?_⟩
  rw [ hb]
  have hInner1 := @head_notMem_no_inner_occurrence (strL "Speaker 10:") (strL "Customer:")
    (by decide) (by decide)
  have hStraddle1 := @tail_notMem_no_straddle (strL "Speaker 10:") (strL "Customer:")
    (by decide) (by decide)
  have hstep1 : ¬ strL "Speaker 10:" <:+:
      replaceAll text (strL "Speaker 10:") (strL "Customer:") :=
    @replaceAllF_no_occurrence (strL "Speaker 10:") (strL "Speaker 10:") (strL "Customer:")
      (by decide) hInner1 hStraddle1 text.length text le_rfl (Or.inl rfl)
  have hInner2 := @head_notMem_no_inner_occurrence (strL "Speaker 10:") (strL "Agent:")
    (by decide) (by decide)
  have hStraddle2 := @tail_notMem_no_straddle (strL "Speaker 10:") (strL "Agent:")
    (by decide) (by decide)
  exact @replaceAllF_no_occurrence (strL "Speaker 10:") (strL "Speaker 1:") (strL "Agent:")
    (by decide) hInner2 hStraddle2
    (replaceAll text (strL "Speaker 10:") (strL "Customer:")).length
    (replaceAll text (strL "Speaker 10:") (strL "Customer:")) le_rfl (Or.inr hstep1)

/-- C4 witness: the ordering and non-corruption conclusions instantiated at
the exemplar key list and the transcript `Speaker 1: a\nSpeaker 10: b`. -/
theorem c4_descending_order_witness :
    (∃ l1 l2, sortDesc [strL "Speaker 1", strL "Speaker 10"] =
        l1 ++ strL "Speaker 10" :: l2 ∧ strL "Speaker 1" ∈ l2) ∧
    (_replace_speakers (strL "Speaker 1: a\nSpeaker 10: b") prefixPairMapping []).1 =
      replaceAll (replaceAll (strL "Speaker 1: a\nSpeaker 10: b")
          (strL "Speaker 10:") (strL "Customer:"))
        (strL "Speaker 1:") (strL "Agent:") ∧
    ¬ strL "Speaker 10:" <:+:
      (_replace_speakers (strL "Speaker 1: a\nSpeaker 10: b") prefixPairMapping []).1 :=
  c4_descending_order_protects_prefix_labels [strL "Speaker 1", strL "Speaker 10"]
    (strL "Speaker 1") (strL "Speaker 10") (strL "Speaker 1: a\nSpeaker 10: b")
    (by decide) (by decide) (by decide) (by decide)
